import Mathlib

/-!
Shallow embedding of the vocabulary-PDF extraction pipeline implemented in
`app.py` (the function `parse_pdf`), together with theorems settling the
specification claims about it.

Strings are modelled as `List Char`; a table cell is `Option (List Char)`
(mirroring cells that may be `None`); a row is a list of cells; a page holds
the extracted text and the tables produced by the two `pdfplumber`
strategies used by the code (the text/stream strategy tried first and the
default grid strategy used as a fallback).
-/

namespace VocabApp

abbrev Str := List Char

/-- Python whitespace (the characters of `\s` / `str.strip` that are relevant
to this program: ASCII whitespace plus NBSP and the ideographic space). -/
def pySpace (c : Char) : Bool :=
  c == ' ' || c == '\t' || c == '\n' || c == '\r' || c == '\x0b' || c == '\x0c' ||
  c == ' ' || c == '　'

/-- ASCII decimal digit (`\d` over the data of this program). -/
def isDigitC (c : Char) : Bool :=
  decide (48 ≤ c.toNat) && decide (c.toNat ≤ 57)

/-- ASCII letter. -/
def isAlphaC (c : Char) : Bool :=
  (decide (65 ≤ c.toNat) && decide (c.toNat ≤ 90)) ||
  (decide (97 ≤ c.toNat) && decide (c.toNat ≤ 122))

/-- CJK unified ideograph test, embedding `re.search(r'[一-鿿]', s)`. -/
def isCJK (c : Char) : Bool :=
  decide (0x4e00 ≤ c.toNat) && decide (c.toNat ≤ 0x9fff)

/-- Python word character (`\w`) as relevant here: ASCII alphanumerics,
underscore, and CJK ideographs (which count as word characters in Python). -/
def pyWordChar (c : Char) : Bool :=
  isAlphaC c || isDigitC c || c == '_' || isCJK c

/-- The character class of `^[a-zA-Z\s\-\.\'’]+$` used by the code for
"pure English word" checks. -/
def wordCharStrict (c : Char) : Bool :=
  isAlphaC c || pySpace c || c == '-' || c == '.' || c == '\'' || c == '’'

/-- The character class of `^[a-zA-Z\s\-\.\'’0-9]+$` used by the leftward
cell scan (the strict class plus digits). -/
def wordCharLoose (c : Char) : Bool :=
  wordCharStrict c || isDigitC c

/-- The character class of `^[\d\s~]+$` (pure numeric / tilde cells). -/
def numericTildeChar (c : Char) : Bool :=
  isDigitC c || pySpace c || c == '~'

/-- Full-string match of `^[class]+$`: non-empty and every char in the class. -/
def fullMatch (p : Char → Bool) (s : Str) : Bool :=
  !s.isEmpty && s.all p

/-- `b` begins with `a` (exact character equality). -/
def leadsWith : Str → Str → Bool
  | [], _ => true
  | _ :: _, [] => false
  | a :: as, b :: bs => a == b && leadsWith as bs

/-- Substring containment, embedding Python `needle in hay`. -/
def containsSub (needle : Str) : Str → Bool
  | [] => leadsWith needle []
  | c :: rest => leadsWith needle (c :: rest) || containsSub needle rest

/-- Python `str.strip()`: drop whitespace from both ends. -/
def pyStrip (s : Str) : Str :=
  ((s.dropWhile pySpace).reverse.dropWhile pySpace).reverse

/-- Cell cleaning from the code:
`str(cell).replace('\n', ' ').strip() if cell is not None else ""`. -/
def cleanCell : Option Str → Str
  | none => []
  | some s => pyStrip (s.map fun c => if c == '\n' then ' ' else c)

def cleanRow (row : List (Option Str)) : List Str :=
  row.map cleanCell

/-- `" ".join(row)`. -/
def joinSpace : List Str → Str
  | [] => []
  | [c] => c
  | c :: rest => c ++ ' ' :: joinSpace rest

/-- Decimal digit string to natural number (the effect of Python `int`). -/
def digitsToNat (ds : Str) : Nat :=
  ds.foldl (fun n c => 10 * n + (c.toNat - 48)) 0

/-- The literal label of the frequency annotation. -/
def freqLabel : Str := "出現次數".toList

/-- Does the regex `出現次數\s*[:：]\s*(\d+)` match starting exactly at the
head of `s`; if so, the integer value of the digit group. -/
def freqAt (s : Str) : Option Nat :=
  if leadsWith freqLabel s then
    match (s.drop freqLabel.length).dropWhile pySpace with
    | c :: r2 =>
      if c == ':' || c == '：' then
        match (r2.dropWhile pySpace).takeWhile isDigitC with
        | [] => none
        | d :: ds => some (digitsToNat (d :: ds))
      else none
    | [] => none
  else none

/-- `re.search(r'出現次數\s*[:：]\s*(\d+)', text)` value-or-zero, embedding
lines 37-40 of the code: the first match's integer, or 0 when absent. -/
def extractFrequency : Str → Nat
  | [] => 0
  | c :: rest =>
    match freqAt (c :: rest) with
    | some n => n
    | none => extractFrequency rest

/-- Value of the two-digit year alternation `(0[5-9]|1[0-4])` at a pair of
characters. -/
def yearPairVal (a b : Char) : Option Nat :=
  if a == '0' && decide (53 ≤ b.toNat) && decide (b.toNat ≤ 57) then
    some (b.toNat - 48)
  else if a == '1' && decide (48 ≤ b.toNat) && decide (b.toNat ≤ 52) then
    some (10 + (b.toNat - 48))
  else none

/-- `\b` before the match: the previous character (if any) is not a word
character. -/
def boundaryB : Option Char → Bool
  | none => true
  | some p => !pyWordChar p

/-- `\b` after the match: the next character (if any) is not a word
character. -/
def boundaryA : Str → Bool
  | [] => true
  | c :: _ => !pyWordChar c

/-- `re.findall(r'\b(0[5-9]|1[0-4])\b', s)`: left-to-right scan for
non-overlapping word-boundary two-digit tokens; `prev` is the character
just before the current scan position. -/
def findYears : Option Char → Str → List Nat
  | _, [] => []
  | _, [_] => []
  | prev, a :: b :: rest =>
    match yearPairVal a b with
    | some v =>
      if boundaryB prev && boundaryA rest then v :: findYears (some b) rest
      else findYears (some a) (b :: rest)
    | none => findYears (some a) (b :: rest)

/-- Lines 123-125 of the code: find year tokens in the joined row text, map
each to `+100`, deduplicate, and sort ascending. -/
def extractYears (s : Str) : List Nat :=
  List.insertionSort (· ≤ ·) (((findYears none s).map (· + 100)).dedup)

/-- The fixed closed set of part-of-speech markers of the anchor regex
`\[\s*(v\.|n\.|adj\.|adv\.|prep\.|conj\.|pron\.|aux\.|art\.|num\.|int\.|pl\.|缩写|縮寫)`. -/
def anchorAlts : List Str :=
  ["v.", "n.", "adj.", "adv.", "prep.", "conj.", "pron.", "aux.", "art.",
   "num.", "int.", "pl.", "缩写", "縮寫"].map String.toList

/-- Case-insensitive prefix test (the effect of `re.IGNORECASE`). -/
def ciLeads : Str → Str → Bool
  | [], _ => true
  | _ :: _, [] => false
  | a :: as, b :: bs => (a.toLower == b.toLower) && ciLeads as bs

/-- Does the anchor regex match starting exactly here: a `[`, optional
whitespace, then one of the part-of-speech alternatives. -/
def anchorHead (s : Str) : Bool :=
  match s with
  | '[' :: rest => anchorAlts.any fun a => ciLeads a (rest.dropWhile pySpace)
  | _ => false

/-- `re.search(pos_pattern, cell, re.IGNORECASE)`: start offset of the first
anchor match in the cell, if any (`match.start()`). -/
def findAnchor : Str → Option Nat
  | [] => none
  | c :: rest =>
    if anchorHead (c :: rest) then some 0 else (findAnchor rest).map (· + 1)

def lvlChars : Str := "Level".toList

/-- Branch A of the row loop (lines 72-85): scan cells left to right for the
first anchor; returns `(def_index, word, definition)` where `word` and
`definition` are the strings assigned by that branch (possibly empty). -/
def findDef (i : Nat) : List Str → Option (Nat × Str × Str)
  | [] => none
  | cell :: rest =>
    match findAnchor cell with
    | some st =>
      if st > 2 then
        if fullMatch wordCharStrict (pyStrip (cell.take st)) then
          some (i, pyStrip (cell.take st), pyStrip (cell.drop st))
        else some (i, [], [])
      else some (i, [], cell)
    | none => findDef (i + 1) rest

/-- One step of the leftward scan of branch B (lines 91-97), over a list of
candidate indices (strictly left of the definition cell, nearest first). -/
def leftScanGo (row : List Str) : List Nat → Str
  | [] => []
  | j :: js =>
    let candidate := row.getD j []
    if containsSub lvlChars candidate then leftScanGo row js
    else if !candidate.isEmpty && fullMatch wordCharLoose candidate &&
            !fullMatch numericTildeChar candidate then candidate
    else leftScanGo row js

/-- Branch B leftward word scan: indices `def_index - 1` down to `0`. -/
def leftScan (row : List Str) (defIdx : Nat) : Str :=
  leftScanGo row (List.range defIdx).reverse

/-- Branch C (lines 105-117): scan the row for a word-like cell to store as
the pending word. -/
def scanPending : List Str → Option Str
  | [] => none
  | cell :: rest =>
    if cell.isEmpty then scanPending rest
    else if containsSub lvlChars cell then scanPending rest
    else if fullMatch numericTildeChar cell then scanPending rest
    else if cell.any isCJK then scanPending rest
    else if fullMatch wordCharStrict cell && decide (cell.length > 1) then some cell
    else scanPending rest

/-- A vocabulary record as appended at lines 127-133 (the display string
`Year_Str` is derived from `years` and omitted). -/
structure Rec where
  word : Str
  definition : Str
  frequency : Nat
  years : List Nat
deriving DecidableEq, Repr

/-- Branch B (lines 88-102): resolve the word for a definition-bearing row,
from the split word `w0`, else the leftward scan, else the pending word
(consuming it); returns the word (possibly empty) and the pending slot
after this branch. -/
def resolveWord (row : List Str) (pending : Option Str) (defIdx : Nat)
    (w0 : Str) : Str × Option Str :=
  let w1 := if w0.isEmpty then leftScan row defIdx else w0
  if w1.isEmpty then
    match pending with
    | some pw => if pw.isEmpty then ([], some pw) else (pw, none)
    | none => ([], none)
  else (w1, pending)

/-- The body of the row loop (lines 60-135): given the page's sticky
frequency, the current pending word, and one raw table row, returns the new
pending word and the emitted record, if any. -/
def processRow (freq : Nat) (pending : Option Str) (rawRow : List (Option Str)) :
    Option Str × Option Rec :=
  let row := cleanRow rawRow
  match findDef 0 row with
  | some (defIdx, w0, d0) =>
    let wp := resolveWord row pending defIdx w0
    if !wp.1.isEmpty && !d0.isEmpty then
      (none, some ⟨wp.1, d0, freq, extractYears (joinSpace row)⟩)
    else (wp.2, none)
  | none =>
    match scanPending row with
    | some w => (some w, none)
    | none => (pending, none)

/-- The row loop over all rows of a page's chosen tables, threading the
pending word and collecting emitted records in order. -/
def runRows (freq : Nat) : Option Str → List (List (Option Str)) → List Rec
  | _, [] => []
  | pending, r :: rs =>
    match processRow freq pending r with
    | (p2, some rec) => rec :: runRows freq p2 rs
    | (p2, none) => runRows freq p2 rs

/-- One page as seen by the parser: the extracted text (lines 34; `""` when
absent), the tables returned by the text/stream strategy call (lines 43-47),
and the tables returned by the default-strategy call (line 51). -/
structure Page where
  text : Str
  streamTables : List (List (List (Option Str)))
  gridTables : List (List (List (Option Str)))

/-- Strategy fallback of lines 43-54: the text/stream tables if non-empty,
else the default (grid) tables. -/
def pageTables (p : Page) : List (List (List (Option Str))) :=
  if p.streamTables.isEmpty then p.gridTables else p.streamTables

/-- All records produced from one page: sticky frequency from the page text,
pending word freshly `none`, rows of the chosen tables in order.  A page
whose both strategies yield no tables contributes `[]` (the `continue` at
line 54). -/
def processPage (p : Page) : List Rec :=
  runRows (extractFrequency p.text) none (pageTables p).flatten

/-- The page loop: records of every page, aggregated in order with no
deduplication (lines 33-135). -/
def processDoc (pages : List Page) : List Rec :=
  (pages.map processPage).flatten

/-- The parser's input at its error boundary: the file may be missing
(line 25), the extraction library may raise (line 139), or the document
opens into a list of pages. -/
inductive PdfInput where
  | missing : PdfInput
  | failing : Str → PdfInput
  | ok : List Page → PdfInput

def missingMsg : Str := "錯誤：找不到 PDF 檔案".toList

def errHead : Str := "發生未預期的錯誤: ".toList

def pageCountMsg (n : Nat) : Str :=
  "PDF 共有 ".toList ++ (toString n).toList ++ " 頁".toList

def doneMsg (n : Nat) : Str :=
  "解析完成，共提取 ".toList ++ (toString n).toList ++ " 個單字".toList

/-- `parse_pdf` at its boundary (lines 14-142): missing file and extraction
failure yield an empty record list plus one diagnostic message; otherwise
the aggregated records plus the debug trace. -/
def parsePdf : PdfInput → List Rec × List Str
  | .missing => ([], [missingMsg])
  | .failing e => ([], [errHead ++ e])
  | .ok pages =>
    (processDoc pages,
     [pageCountMsg pages.length, doneMsg (processDoc pages).length])

/-- Big-step relation presentation of one `parse_pdf` invocation; used to
state that any two runs on the same input agree. -/
inductive ParseRel : PdfInput → List Rec × List Str → Prop where
  | missing : ParseRel .missing ([], [missingMsg])
  | failing (e : Str) : ParseRel (.failing e) ([], [errHead ++ e])
  | ok (pages : List Page) :
      ParseRel (.ok pages)
        (processDoc pages,
         [pageCountMsg pages.length, doneMsg (processDoc pages).length])

/-- Modelled from the spec: the strategy order the claim asserts — table-grid
extraction first, text-stream extraction as the fallback.  Used only to
compare against the order the code actually implements. -/
def claimedPageTables (p : Page) : List (List (List (Option Str))) :=
  if p.gridTables.isEmpty then p.streamTables else p.gridTables

/-- Modelled from the spec: page processing under the claimed strategy
order. -/
def claimedProcessPage (p : Page) : List Rec :=
  runRows (extractFrequency p.text) none (claimedPageTables p).flatten

/-- Modelled from the spec: first-seen-wins deduplication of records by
their (case-sensitive) word. -/
def dedupByWordGo (seen : List Str) : List Rec → List Rec
  | [] => []
  | r :: rs =>
    if seen.contains r.word then dedupByWordGo seen rs
    else r :: dedupByWordGo (r.word :: seen) rs

/-- Modelled from the spec: deduplicate a record list keeping, for each
word, only its first occurrence. -/
def dedupByWord (l : List Rec) : List Rec :=
  dedupByWordGo [] l

/-- Modelled from the spec: the claimed word alphabet — letters, spaces,
hyphen, straight or curly apostrophe (no digits, no period). -/
def claimedWordChar (c : Char) : Bool :=
  c.isAlpha || pySpace c || c == '-' || c == '\'' || c == '’'

/-- The character before the scan start is compatible with a `\b`: absent,
or not a word character. -/
def PrevNonWord : Option Char → Prop
  | none => True
  | some c => pyWordChar c = false

/-- `s` contains, relative to a preceding character `prev`, a word-boundary
two-digit token of the year alternation with value `v`: a split
`pre ++ a :: b :: post` where the pair has value `v`, the character before
the pair (the last of `pre`, or `prev` when `pre` is empty) is not a word
character, and the character after the pair (the head of `post`, if any) is
not a word character. -/
def HasYearToken (prev : Option Char) (s : Str) (v : Nat) : Prop :=
  ∃ pre a b post, s = pre ++ a :: b :: post ∧ yearPairVal a b = some v ∧
    ((pre = [] ∧ PrevNonWord prev) ∨
      (∃ q, pre.getLast? = some q ∧ pyWordChar q = false)) ∧
    (post = [] ∨ ∃ c cs, post = c :: cs ∧ pyWordChar c = false)

/-! ### Helper lemmas -/

theorem leadsWith_refl (s : Str) : leadsWith s s = true := by
  induction s with
  | nil => rfl
  | cons a as ih => simp [leadsWith, ih]

theorem containsSub_append_self (s : Str) :
    ∀ pre : Str, containsSub s (pre ++ s) = true := by
  intro pre
  induction pre with
  | nil =>
    cases s with
    | nil => rfl
    | cons c cs => simp [containsSub, leadsWith_refl]
  | cons p ps ih => simp [containsSub, ih]

theorem ne_nil_of_isEmpty_false {l : Str} (h : l.isEmpty = false) : l ≠ [] := by
  intro e
  subst e
  simp at h

/-- If a row step emits a record, the new pending slot is `none`, and the
record carries the page frequency, a non-empty word, a non-empty definition,
and the years extracted from the joined cleaned row. -/
theorem processRow_emit (freq : Nat) (pending : Option Str)
    (row : List (Option Str)) (pnew : Option Str) (r : Rec)
    (h : processRow freq pending row = (pnew, some r)) :
    pnew = none ∧
    r.frequency = freq ∧ r.word ≠ [] ∧ r.definition ≠ [] ∧
    r.years = extractYears (joinSpace (cleanRow row)) := by
  simp only [processRow] at h
  split at h
  next defIdx w0 d0 heq =>
    split at h
    next hc =>
      rw [Prod.mk.injEq, Option.some.injEq] at h
      obtain ⟨hp, hr⟩ := h
      subst hr
      refine ⟨hp.symm, rfl, ?_, ?_, rfl⟩
      · intro e
        have e2 : (resolveWord (cleanRow row) pending defIdx w0).1 = [] := e
        rw [e2] at hc; simp at hc
      · intro e
        have e2 : d0 = [] := e
        rw [e2] at hc; simp at hc
    next hc => simp at h
  next heq =>
    split at h <;> simp at h

/-- Every record in the output of the row loop carries the frequency the
loop was started with. -/
theorem runRows_frequency (freq : Nat) :
    ∀ (rows : List (List (Option Str))) (pending : Option Str) (r : Rec),
      r ∈ runRows freq pending rows → r.frequency = freq := by
  intro rows
  induction rows with
  | nil => intro pending r h; simp [runRows] at h
  | cons row rs ih =>
    intro pending r h
    rw [runRows] at h
    cases hpr : processRow freq pending row with
    | mk p2 o =>
      rw [hpr] at h
      cases o with
      | some emitted =>
        rcases List.mem_cons.mp h with h1 | h2
        · subst h1
          exact (processRow_emit freq pending row p2 r hpr).2.1
        · exact ih p2 r h2
      | none => exact ih p2 r h

/-! ### Claim theorems -/

/-- C9: error handling at the parser boundary — a missing document handle
yields the empty record set plus the fixed diagnostic; an extraction-library
failure yields the empty record set plus a single diagnostic that contains
the failure detail; both are ordinary return values of the total function
`parsePdf`, so no error escapes the parser. -/
theorem C9_error_boundary :
    parsePdf .missing = ([], [missingMsg]) ∧
    ∀ e : Str, (parsePdf (.failing e)).1 = [] ∧
      (parsePdf (.failing e)).2 = [errHead ++ e] ∧
      containsSub e (errHead ++ e) = true := by
  refine ⟨rfl, fun e => ⟨rfl, rfl, containsSub_append_self e errHead⟩⟩

/-- C10: parsing is deterministic — the big-step parse relation relates each
input to at most one result, and `parsePdf` realises it, so two invocations
on the same input document produce identical record sequences. -/
theorem C10_parse_deterministic :
    (∀ (i : PdfInput) (o₁ o₂ : List Rec × List Str),
        ParseRel i o₁ → ParseRel i o₂ → o₁ = o₂) ∧
    ∀ i : PdfInput, ParseRel i (parsePdf i) := by
  constructor
  · intro i o₁ o₂ h₁ h₂
    cases h₁ <;> cases h₂ <;> rfl
  · intro i
    cases i with
    | missing => exact ParseRel.missing
    | failing e => exact ParseRel.failing e
    | ok pages => exact ParseRel.ok pages

/-- C10 witness: the determinism theorem applied to the concrete input
`missing`, whose two derivations yield the same result. -/
theorem C10_parse_deterministic_witness :
    (([], [missingMsg]) : List Rec × List Str) = ([], [missingMsg]) :=
  C10_parse_deterministic.1 .missing _ _ ParseRel.missing ParseRel.missing

/-- C1 counterexample: the claimed order (grid first) is false — on a page
where both strategies yield a table, the code keeps the text-stream table
(producing "beta") while the claimed grid-first selector would produce
"alpha". -/
theorem C1_counterexample :
    (processPage (Page.mk [] [[[some "beta [n.] 乙".toList]]]
        [[[some "alpha [n.] 甲".toList]]])).map Rec.word = ["beta".toList] ∧
    (claimedProcessPage (Page.mk [] [[[some "beta [n.] 乙".toList]]]
        [[[some "alpha [n.] 甲".toList]]])).map Rec.word = ["alpha".toList] := by
  constructor <;> rfl

/-- C1 (amended): for every page the parser tries text-stream table
extraction FIRST; if it yields no table it falls back to the default
grid-based extraction; there is no plain-line-scanning fallback, so a page
where both strategies yield no tables contributes zero records without
error; the selector stops at the first strategy yielding a table, so the
grid tables never influence the result when stream tables exist. -/
theorem C1_amended_strategy_order (p : Page) :
    (p.streamTables = [] → p.gridTables = [] → processPage p = []) ∧
    (p.streamTables ≠ [] →
      ∀ g, processPage (Page.mk p.text p.streamTables g) = processPage p) ∧
    (p.streamTables = [] →
      processPage p = runRows (extractFrequency p.text) none p.gridTables.flatten) := by
  refine ⟨fun hs hg => ?_, fun hs g => ?_, fun hs => ?_⟩
  · simp [processPage, pageTables, hs, hg, runRows]
  · cases hst : p.streamTables with
    | nil => exact absurd hst hs
    | cons t ts => simp [processPage, pageTables, hst]
  · simp [processPage, pageTables, hs]

/-- C1 witness: the amended theorem applied to a concrete page with no
tables under either strategy, which contributes zero records. -/
theorem C1_amended_strategy_order_witness :
    processPage (Page.mk "x".toList [] []) = [] :=
  (C1_amended_strategy_order (Page.mk "x".toList [] [])).1 rfl rfl

/-- C4 counterexample: the parser does NOT deduplicate by word — a page
emitting "access" twice returns both records, while the claimed
first-seen-wins dedup would keep only the first. -/
theorem C4_counterexample :
    (processDoc [Page.mk [] [[[some "access [n.] 一".toList],
        [some "access [n.] 二".toList]]] []]).map Rec.word
      = ["access".toList, "access".toList] ∧
    dedupByWord (processDoc [Page.mk [] [[[some "access [n.] 一".toList],
        [some "access [n.] 二".toList]]] []])
      ≠ processDoc [Page.mk [] [[[some "access [n.] 一".toList],
        [some "access [n.] 二".toList]]] []] := by
  constructor
  · rfl
  · decide

/-- C4 (amended): the Document Parser performs no deduplication — the final
record set is the concatenation of the per-page record lists in insertion
order, so records of a later page are appended unchanged regardless of the
words already emitted. -/
theorem C4_amended_no_dedup (pages : List Page) (p : Page) :
    (parsePdf (.ok (pages ++ [p]))).1 = (parsePdf (.ok pages)).1 ++ processPage p := by
  simp [parsePdf, processDoc]

/-- C8 counterexample: a one-cell row (width below 2) is NOT skipped — the
single cell splits at its anchor into a word and a definition and emits a
record. -/
theorem C8_counterexample :
    (([some "apple [n.] 蘋果".toList] : List (Option Str)).length < 2) ∧
    (processRow 0 none [some "apple [n.] 蘋果".toList]).2
      = some ⟨"apple".toList, "[n.] 蘋果".toList, 0, []⟩ := by
  exact ⟨by decide, rfl⟩

/-- C8 (amended): a unit that yields no word or no definition is skipped
without error (a record is emitted only with a non-empty word and a
non-empty definition, and the row step is a total function), but there is
no minimum-width check: a single-cell row can emit a record. -/
theorem C8_amended_skip :
    (∀ (freq : Nat) (pending : Option Str) (row : List (Option Str))
        (pnew : Option Str) (r : Rec),
        processRow freq pending row = (pnew, some r) →
        r.word ≠ [] ∧ r.definition ≠ []) ∧
    (processRow 0 none [some "rose [n.] 玫瑰".toList]).2
      = some ⟨"rose".toList, "[n.] 玫瑰".toList, 0, []⟩ := by
  refine ⟨fun freq pending row pnew r h => ?_, rfl⟩
  obtain ⟨-, -, hw, hd, -⟩ := processRow_emit freq pending row pnew r h
  exact ⟨hw, hd⟩

/-- C8 witness: the amended theorem applied to a concrete emitting row. -/
theorem C8_amended_skip_witness :
    ("lake".toList ≠ [] ∧ "[n.] 湖".toList ≠ []) := by
  have h := C8_amended_skip.1 0 none [some "lake [n.] 湖".toList] none
    ⟨"lake".toList, "[n.] 湖".toList, 0, []⟩ rfl
  exact h

/-- C2: cross-row merge — when a row resolves a definition but yields no
word of its own (no split word, empty leftward scan), a non-empty pending
word from a previous unit is consumed as the record's word and the pending
slot comes out empty; concretely the consecutive rows `["access"]` then
`["[n.] 通道"]` emit one record with word `"access"`. -/
theorem C2_cross_row_merge :
    (∀ (freq : Nat) (pw : Str) (rawRow : List (Option Str)) (i : Nat) (d : Str),
        pw ≠ [] →
        findDef 0 (cleanRow rawRow) = some (i, [], d) →
        leftScan (cleanRow rawRow) i = [] →
        d ≠ [] →
        processRow freq (some pw) rawRow =
          (none, some ⟨pw, d, freq, extractYears (joinSpace (cleanRow rawRow))⟩)) ∧
    runRows 0 none [[some "access".toList], [some "[n.] 通道".toList]]
      = [⟨"access".toList, "[n.] 通道".toList, 0, []⟩] := by
  constructor
  · intro freq pw rawRow i d hpw hfd hls hd
    have hre : resolveWord (cleanRow rawRow) (some pw) i [] = (pw, none) := by
      simp only [resolveWord, List.isEmpty_nil, if_true]
      rw [hls]
      cases pw with
      | nil => exact absurd rfl hpw
      | cons a as => simp
    simp only [processRow, hfd, hre]
    cases d with
    | nil => exact absurd rfl hd
    | cons c cs =>
      cases pw with
      | nil => exact absurd rfl hpw
      | cons a as => simp
  · rfl

/-- C2 witness: the merge theorem applied to a concrete pending word and a
concrete word-less definition row. -/
theorem C2_cross_row_merge_witness :
    processRow 3 (some "north".toList) [some "[adj.] 北".toList] =
      (none, some ⟨"north".toList, "[adj.] 北".toList, 3,
        extractYears (joinSpace (cleanRow [some "[adj.] 北".toList]))⟩) :=
  C2_cross_row_merge.1 3 "north".toList [some "[adj.] 北".toList] 0
    "[adj.] 北".toList (by decide) (by decide) (by decide) (by decide)

/-- C3: the pending word never crosses page boundaries — the document's
record list is the concatenation of per-page results computed independently
(each page starts its row scan with an empty pending slot, so a pending word
set on page N cannot be consumed on page N+1), and the pending slot is
cleared by any successful record emission. -/
theorem C3_pending_page_local :
    (∀ (xs ys : List Page) (p : Page),
        processDoc (xs ++ p :: ys) =
          processDoc xs ++ processPage p ++ processDoc ys) ∧
    (∀ (freq : Nat) (pending : Option Str) (row : List (Option Str))
        (pnew : Option Str) (r : Rec),
        processRow freq pending row = (pnew, some r) → pnew = none) := by
  constructor
  · intro xs ys p
    simp [processDoc]
  · intro freq pending row pnew r h
    exact (processRow_emit freq pending row pnew r h).1

/-- C3 witness: the emission-clears-pending part applied to a concrete
emitting row. -/
theorem C3_pending_page_local_witness : (none : Option Str) = none :=
  C3_pending_page_local.2 0 none [some "park [n.] 公園".toList] none
    ⟨"park".toList, "[n.] 公園".toList, 0, []⟩ rfl

theorem freqAt_nil : freqAt [] = none := rfl

/-- The first position at which the frequency pattern matches determines
the extracted value. -/
theorem extractFrequency_first :
    ∀ (text : Str) (i v : Nat),
      (∀ j, j < i → freqAt (text.drop j) = none) →
      freqAt (text.drop i) = some v → extractFrequency text = v := by
  intro text
  induction text with
  | nil =>
    intro i v _ hi
    rw [List.drop_nil, freqAt_nil] at hi
    cases hi
  | cons c rest ih =>
    intro i v hlt hi
    cases i with
    | zero =>
      rw [List.drop_zero] at hi
      rw [extractFrequency, hi]
    | succ i2 =>
      have h0 : freqAt (c :: rest) = none := by
        have := hlt 0 (Nat.succ_pos i2)
        rwa [List.drop_zero] at this
      rw [extractFrequency, h0]
      refine ih i2 v (fun j hj => ?_) ?_
      · have := hlt (j + 1) (Nat.succ_lt_succ hj)
        rwa [List.drop_succ_cons] at this
      · rwa [List.drop_succ_cons] at hi

/-- When the frequency pattern matches nowhere, the extracted value is 0. -/
theorem extractFrequency_zero :
    ∀ text : Str, (∀ j, freqAt (text.drop j) = none) →
      extractFrequency text = 0 := by
  intro text
  induction text with
  | nil => intro _; rfl
  | cons c rest ih =>
    intro h
    have h0 : freqAt (c :: rest) = none := by
      have := h 0
      rwa [List.drop_zero] at this
    rw [extractFrequency, h0]
    exact ih fun j => by have := h (j + 1); rwa [List.drop_succ_cons] at this

/-- C5: frequency extraction and stickiness — the page frequency is the
value of the first match of the label-colon-integer pattern in the page
text (0 when no position matches), and every record produced from a page
carries exactly that page's frequency. -/
theorem C5_frequency_sticky :
    (∀ (text : Str) (i v : Nat),
        (∀ j, j < i → freqAt (text.drop j) = none) →
        freqAt (text.drop i) = some v → extractFrequency text = v) ∧
    (∀ text : Str, (∀ j, freqAt (text.drop j) = none) →
        extractFrequency text = 0) ∧
    (∀ (p : Page) (r : Rec), r ∈ processPage p →
        r.frequency = extractFrequency p.text) := by
  refine ⟨extractFrequency_first, extractFrequency_zero, fun p r h => ?_⟩
  exact runRows_frequency (extractFrequency p.text) (pageTables p).flatten none r h

/-- C5 witness: the first-match part applied to a concrete page text whose
header states occurrence count 8. -/
theorem C5_frequency_sticky_witness :
    extractFrequency "出現次數: 8".toList = 8 :=
  C5_frequency_sticky.1 "出現次數: 8".toList 0 8
    (fun j hj => absurd hj (Nat.not_lt_zero j)) (by decide)

/-! ### Word-shape invariant (C7) -/

theorem dropWhile_head_false (p : Char → Bool) :
    ∀ (l : Str) (c : Char) (cs : Str), l.dropWhile p = c :: cs → p c = false := by
  intro l
  induction l with
  | nil => intro c cs h; simp at h
  | cons a as ih =>
    intro c cs h
    rw [List.dropWhile_cons] at h
    cases hpa : p a with
    | true => simp only [hpa, if_true] at h; exact ih c cs h
    | false =>
      simp only [hpa, Bool.false_eq_true, if_false] at h
      injection h with h1 h2
      subst h1
      exact hpa

/-- A non-empty stripped string is not all whitespace. -/
theorem pyStrip_not_all_space (x : Str) (h : pyStrip x ≠ []) :
    (pyStrip x).all pySpace = false := by
  unfold pyStrip at h ⊢
  cases hm : (x.dropWhile pySpace).reverse.dropWhile pySpace with
  | nil => rw [hm] at h; simp at h
  | cons c cs =>
    rw [List.all_reverse]
    have hc := dropWhile_head_false pySpace _ c cs hm
    simp [hc]

theorem strict_and_numeric_space (c : Char)
    (hs : wordCharStrict c = true) (hn : numericTildeChar c = true) :
    pySpace c = true := by
  simp only [wordCharStrict, numericTildeChar, isAlphaC, isDigitC,
    Bool.or_eq_true, Bool.and_eq_true, decide_eq_true_eq, beq_iff_eq] at hs hn
  rcases hn with (hn | hn) | hn
  · rcases hs with (((((hs | hs) | hs) | hs) | hs) | hs) | hs
    · omega
    · omega
    · exact hs
    · subst hs; exact absurd hn (by decide)
    · subst hs; exact absurd hn (by decide)
    · subst hs; exact absurd hn (by decide)
    · subst hs; exact absurd hn (by decide)
  · exact hn
  · subst hn
    rcases hs with (((((hs | hs) | hs) | hs) | hs) | hs) | hs
    · exact absurd hs (by decide)
    · exact absurd hs (by decide)
    · exact hs
    · exact absurd hs (by decide)
    · exact absurd hs (by decide)
    · exact absurd hs (by decide)
    · exact absurd hs (by decide)

/-- A non-empty stripped pure-strict-class string never matches the pure
numeric/tilde pattern. -/
theorem stripped_strict_not_numeric (x : Str) (h : pyStrip x ≠ [])
    (hs : (pyStrip x).all wordCharStrict = true) :
    (pyStrip x).all numericTildeChar = false := by
  cases hn : (pyStrip x).all numericTildeChar with
  | false => rfl
  | true =>
    exfalso
    have hsp : (pyStrip x).all pySpace = true := by
      rw [List.all_eq_true] at hs hn ⊢
      intro c hc
      exact strict_and_numeric_space c (hs c hc) (hn c hc)
    rw [pyStrip_not_all_space x h] at hsp
    cases hsp

theorem all_strict_to_loose {w : Str} (h : w.all wordCharStrict = true) :
    w.all wordCharLoose = true := by
  rw [List.all_eq_true] at h ⊢
  intro c hc
  have := h c hc
  simp [wordCharLoose, this]

/-- Every word produced by the pending-word scan is non-empty, all-strict,
and not pure numeric/tilde. -/
theorem scanPending_ok :
    ∀ (row : List Str) (w : Str), scanPending row = some w →
      w ≠ [] ∧ w.all wordCharStrict = true ∧ w.all numericTildeChar = false := by
  intro row
  induction row with
  | nil => intro w h; cases h
  | cons cell rest ih =>
    intro w h
    rw [scanPending] at h
    by_cases h1 : cell.isEmpty = true
    · rw [if_pos h1] at h; exact ih w h
    · rw [if_neg h1] at h
      by_cases h2 : containsSub lvlChars cell = true
      · rw [if_pos h2] at h; exact ih w h
      · rw [if_neg h2] at h
        by_cases h3 : fullMatch numericTildeChar cell = true
        · rw [if_pos h3] at h; exact ih w h
        · rw [if_neg h3] at h
          by_cases h4 : cell.any isCJK = true
          · rw [if_pos h4] at h; exact ih w h
          · rw [if_neg h4] at h
            by_cases h5 :
                (fullMatch wordCharStrict cell && decide (cell.length > 1)) = true
            · rw [if_pos h5] at h
              injection h with h6
              subst h6
              have hie : cell.isEmpty = false := by
                cases hie2 : cell.isEmpty with
                | false => rfl
                | true => exact absurd hie2 h1
              have hfm := (Bool.and_eq_true .. |>.mp h5).1
              have hall : cell.all wordCharStrict = true :=
                (Bool.and_eq_true .. |>.mp hfm).2
              refine ⟨ne_nil_of_isEmpty_false hie, hall, ?_⟩
              have h3f : fullMatch numericTildeChar cell = false := by
                cases h3f2 : fullMatch numericTildeChar cell with
                | false => rfl
                | true => exact absurd h3f2 h3
              rw [fullMatch, hie] at h3f
              simpa using h3f
            · rw [if_neg h5] at h; exact ih w h

/-- The split word of a definition-bearing cell is empty or non-empty,
all-strict, and not pure numeric/tilde. -/
theorem findDef_word_ok :
    ∀ (row : List Str) (i defIdx : Nat) (w d : Str),
      findDef i row = some (defIdx, w, d) →
      w = [] ∨ (w ≠ [] ∧ w.all wordCharStrict = true ∧
        w.all numericTildeChar = false) := by
  intro row
  induction row with
  | nil => intro i j w d h; cases h
  | cons cell rest ih =>
    intro i j w d h
    rw [findDef] at h
    cases hfa : findAnchor cell with
    | none => rw [hfa] at h; exact ih (i + 1) j w d h
    | some st =>
      simp only [hfa] at h
      by_cases hst : st > 2
      · rw [if_pos hst] at h
        by_cases hfm : fullMatch wordCharStrict (pyStrip (cell.take st)) = true
        · rw [if_pos hfm] at h
          injection h with h1
          injection h1 with ha hb
          injection hb with hw hd
          subst hw
          right
          obtain ⟨hne, hall⟩ := Bool.and_eq_true .. |>.mp hfm
          have hie : (pyStrip (cell.take st)).isEmpty = false := by
            simpa using hne
          refine ⟨ne_nil_of_isEmpty_false hie, hall, ?_⟩
          exact stripped_strict_not_numeric (cell.take st)
            (ne_nil_of_isEmpty_false hie) hall
        · rw [if_neg hfm] at h
          injection h with h1
          injection h1 with ha hb
          injection hb with hw hd
          exact Or.inl hw.symm
      · rw [if_neg hst] at h
        injection h with h1
        injection h1 with ha hb
        injection hb with hw hd
        exact Or.inl hw.symm

/-- The result of the leftward scan is empty or non-empty, all-loose, and
not pure numeric/tilde. -/
theorem leftScanGo_ok (row : List Str) :
    ∀ idxs : List Nat, leftScanGo row idxs = [] ∨
      (leftScanGo row idxs ≠ [] ∧
       (leftScanGo row idxs).all wordCharLoose = true ∧
       (leftScanGo row idxs).all numericTildeChar = false) := by
  intro idxs
  induction idxs with
  | nil => exact Or.inl rfl
  | cons j js ih =>
    simp only [leftScanGo]
    by_cases h1 : containsSub lvlChars (row.getD j []) = true
    · rw [if_pos h1]; exact ih
    · rw [if_neg h1]
      by_cases h2 : (!(row.getD j []).isEmpty &&
          fullMatch wordCharLoose (row.getD j []) &&
          !fullMatch numericTildeChar (row.getD j [])) = true
      · rw [if_pos h2]
        right
        obtain ⟨h3, h4⟩ := Bool.and_eq_true .. |>.mp h2
        obtain ⟨h5, h6⟩ := Bool.and_eq_true .. |>.mp h3
        have hie : (row.getD j []).isEmpty = false := by simpa using h5
        refine ⟨ne_nil_of_isEmpty_false hie,
          (Bool.and_eq_true .. |>.mp h6).2, ?_⟩
        have h4f : fullMatch numericTildeChar (row.getD j []) = false := by
          simpa using h4
        rw [fullMatch, hie] at h4f
        simpa using h4f
      · rw [if_neg h2]; exact ih

/-- The resolved word of a definition-bearing row is empty or satisfies the
loose word shape, and any surviving pending word keeps the strict shape. -/
theorem resolveWord_ok (row : List Str) (pending : Option Str) (defIdx : Nat)
    (w0 : Str) (wv : Str) (pnew : Option Str)
    (hp : ∀ pw, pending = some pw →
      pw ≠ [] ∧ pw.all wordCharStrict = true ∧ pw.all numericTildeChar = false)
    (hw0 : w0 = [] ∨ (w0 ≠ [] ∧ w0.all wordCharStrict = true ∧
      w0.all numericTildeChar = false))
    (h : resolveWord row pending defIdx w0 = (wv, pnew)) :
    (wv = [] ∨ (wv ≠ [] ∧ wv.all wordCharLoose = true ∧
      wv.all numericTildeChar = false)) ∧
    (∀ pw, pnew = some pw →
      pw ≠ [] ∧ pw.all wordCharStrict = true ∧
      pw.all numericTildeChar = false) := by
  simp only [resolveWord] at h
  by_cases he0 : w0.isEmpty = true
  · rw [if_pos he0] at h
    by_cases he1 : (leftScan row defIdx).isEmpty = true
    · rw [if_pos he1] at h
      cases pending with
      | none =>
        injection h with h1 h2
        subst h1; subst h2
        exact ⟨Or.inl rfl, fun pw hpw => by cases hpw⟩
      | some pw =>
        obtain ⟨hpne, hpstr, hpnum⟩ := hp pw rfl
        have hpe : pw.isEmpty = false := by
          cases hpe2 : pw.isEmpty with
          | false => rfl
          | true => exact absurd (by simpa using hpe2) hpne
        simp only [hpe, Bool.false_eq_true, if_false] at h
        injection h with h1 h2
        subst h1; subst h2
        refine ⟨Or.inr ⟨hpne, all_strict_to_loose hpstr, hpnum⟩,
          fun pw2 hpw2 => by cases hpw2⟩
    · rw [if_neg he1] at h
      injection h with h1 h2
      subst h1; subst h2
      refine ⟨?_, hp⟩
      rcases leftScanGo_ok row (List.range defIdx).reverse with hl | hl
      · exact Or.inl hl
      · exact Or.inr hl
  · rw [if_neg he0] at h
    rw [if_neg he0] at h
    injection h with h1 h2
    subst h1; subst h2
    rcases hw0 with h0 | ⟨h0a, h0b, h0c⟩
    · subst h0; exact absurd rfl he0
    · exact ⟨Or.inr ⟨h0a, all_strict_to_loose h0b, h0c⟩, hp⟩

/-- One row step preserves the pending-word shape and only emits records
whose word has the loose shape. -/
theorem processRow_word_ok (freq : Nat) (pending : Option Str)
    (rawRow : List (Option Str)) (pnew : Option Str) (o : Option Rec)
    (hp : ∀ pw, pending = some pw →
      pw ≠ [] ∧ pw.all wordCharStrict = true ∧ pw.all numericTildeChar = false)
    (h : processRow freq pending rawRow = (pnew, o)) :
    (∀ pw, pnew = some pw →
      pw ≠ [] ∧ pw.all wordCharStrict = true ∧
      pw.all numericTildeChar = false) ∧
    (∀ r : Rec, o = some r →
      r.word ≠ [] ∧ r.word.all wordCharLoose = true ∧
      r.word.all numericTildeChar = false) := by
  simp only [processRow] at h
  cases hfd : findDef 0 (cleanRow rawRow) with
  | none =>
    simp only [hfd] at h
    cases hsp : scanPending (cleanRow rawRow) with
    | none =>
      simp only [hsp] at h
      injection h with h1 h2
      subst h1; subst h2
      exact ⟨hp, fun r hr => by cases hr⟩
    | some w =>
      simp only [hsp] at h
      injection h with h1 h2
      subst h1; subst h2
      exact ⟨fun pw hpw => by cases hpw; exact scanPending_ok _ w hsp,
        fun r hr => by cases hr⟩
  | some t =>
    obtain ⟨defIdx, w0, d0⟩ := t
    simp only [hfd] at h
    cases hrw : resolveWord (cleanRow rawRow) pending defIdx w0 with
    | mk wv pn2 =>
      have hres := resolveWord_ok (cleanRow rawRow) pending defIdx w0 wv pn2
        hp (findDef_word_ok (cleanRow rawRow) 0 defIdx w0 d0 hfd) hrw
      simp only [hrw] at h
      by_cases hc : (!wv.isEmpty && !d0.isEmpty) = true
      · rw [if_pos hc] at h
        injection h with h1 h2
        subst h1; subst h2
        constructor
        · intro pw hpw; cases hpw
        · intro r hr
          injection hr with hr1
          subst hr1
          rcases hres.1 with hv | hv
          · subst hv; simp at hc
          · exact hv
      · rw [if_neg hc] at h
        injection h with h1 h2
        subst h1; subst h2
        exact ⟨hres.2, fun r hr => by cases hr⟩

/-- The row loop only emits records whose word has the loose shape. -/
theorem runRows_word_ok (freq : Nat) :
    ∀ (rows : List (List (Option Str))) (pending : Option Str),
      (∀ pw, pending = some pw →
        pw ≠ [] ∧ pw.all wordCharStrict = true ∧
        pw.all numericTildeChar = false) →
      ∀ r ∈ runRows freq pending rows,
        r.word ≠ [] ∧ r.word.all wordCharLoose = true ∧
        r.word.all numericTildeChar = false := by
  intro rows
  induction rows with
  | nil => intro pending hp r hr; simp [runRows] at hr
  | cons row rs ih =>
    intro pending hp r hr
    rw [runRows] at hr
    cases hpr : processRow freq pending row with
    | mk p2 o =>
      have hres := processRow_word_ok freq pending row p2 o hp hpr
      rw [hpr] at hr
      cases o with
      | some emitted =>
        rcases List.mem_cons.mp hr with h1 | h2
        · subst h1
          exact hres.2 r rfl
        · exact ih p2 hres.1 r h2
      | none => exact ih p2 hres.1 r hr

/-- C7 counterexample: the rows `[".", "[n.] 中"]` and `["a1", "[n.] 乙"]`
emit the words "." and "a1" — "." has trimmed length 1 (below the claimed
minimum of 2) and "a1" contains a digit (outside the claimed alphabet of
letters, spaces, hyphen and apostrophes), so the claimed word shape is
false on both counts. -/
theorem C7_counterexample :
    (processDoc [Page.mk [] [[[some ".".toList, some "[n.] 中".toList],
        [some "a1".toList, some "[n.] 乙".toList]]] []]).map Rec.word
      = [".".toList, "a1".toList] ∧
    (pyStrip ".".toList).length < 2 ∧
    "a1".toList.all claimedWordChar = false := by
  exact ⟨rfl, by decide, by decide⟩

/-- C7 (amended): every emitted record's word is a non-empty string over
the loose alphabet actually enforced by the code — letters, digits, spaces,
hyphen, period, straight or curly apostrophe — and is never composed solely
of digits, whitespace and `~`; the leftward cell scan skips `Level` cells
and pure numeric/`~` cells but uses the loose (digit-admitting) pattern
with no minimum length, so no 2-character minimum holds. -/
theorem C7_amended_word_shape (input : PdfInput) (r : Rec)
    (h : r ∈ (parsePdf input).1) :
    r.word ≠ [] ∧ r.word.all wordCharLoose = true ∧
    r.word.all numericTildeChar = false := by
  cases input with
  | missing => cases h
  | failing e => cases h
  | ok pages =>
    obtain ⟨recs, hrecs, hr⟩ := List.mem_flatten.mp h
    obtain ⟨p, hpmem, hpe⟩ := List.mem_map.mp hrecs
    subst hpe
    exact runRows_word_ok (extractFrequency p.text) (pageTables p).flatten none
      (fun pw hpw => by cases hpw) r hr

/-- C7 witness: the amended word-shape theorem applied to a concrete
document emitting one record. -/
theorem C7_amended_word_shape_witness :
    "tree".toList ≠ [] ∧ "tree".toList.all wordCharLoose = true ∧
    "tree".toList.all numericTildeChar = false :=
  C7_amended_word_shape
    (.ok [Page.mk [] [[[some "tree [n.] 樹".toList]]] []])
    ⟨"tree".toList, "[n.] 樹".toList, 0, []⟩ (by decide)

/-! ### Year-scanner characterisation (C6) -/

theorem yearPairVal_snd_digit (a b : Char) (v : Nat)
    (h : yearPairVal a b = some v) : 48 ≤ b.toNat ∧ b.toNat ≤ 57 := by
  unfold yearPairVal at h
  by_cases h1 : (a == '0' && decide (53 ≤ b.toNat) && decide (b.toNat ≤ 57)) = true
  · simp only [Bool.and_eq_true, decide_eq_true_eq] at h1
    omega
  · rw [if_neg h1] at h
    by_cases h2 : (a == '1' && decide (48 ≤ b.toNat) && decide (b.toNat ≤ 52)) = true
    · simp only [Bool.and_eq_true, decide_eq_true_eq] at h2
      omega
    · rw [if_neg h2] at h
      cases h

theorem yearPairVal_range (a b : Char) (v : Nat)
    (h : yearPairVal a b = some v) : 5 ≤ v ∧ v ≤ 14 := by
  unfold yearPairVal at h
  by_cases h1 : (a == '0' && decide (53 ≤ b.toNat) && decide (b.toNat ≤ 57)) = true
  · rw [if_pos h1] at h
    injection h with h3
    simp only [Bool.and_eq_true, decide_eq_true_eq] at h1
    omega
  · rw [if_neg h1] at h
    by_cases h2 : (a == '1' && decide (48 ≤ b.toNat) && decide (b.toNat ≤ 52)) = true
    · rw [if_pos h2] at h
      injection h with h3
      simp only [Bool.and_eq_true, decide_eq_true_eq] at h2
      omega
    · rw [if_neg h2] at h
      cases h

theorem pyWordChar_of_digit (b : Char) (h : 48 ≤ b.toNat ∧ b.toNat ≤ 57) :
    pyWordChar b = true := by
  simp only [pyWordChar, isDigitC, isAlphaC, Bool.or_eq_true, Bool.and_eq_true,
    decide_eq_true_eq]
  exact Or.inl (Or.inl (Or.inr h))

theorem boundaryB_iff (prev : Option Char) :
    boundaryB prev = true ↔ PrevNonWord prev := by
  cases prev with
  | none => simp [boundaryB, PrevNonWord]
  | some p => simp [boundaryB, PrevNonWord, Bool.not_eq_true']

theorem boundaryA_iff (post : Str) :
    boundaryA post = true ↔
      (post = [] ∨ ∃ c cs, post = c :: cs ∧ pyWordChar c = false) := by
  cases post with
  | nil => simp [boundaryA]
  | cons c cs =>
    simp only [boundaryA, Bool.not_eq_true']
    constructor
    · intro h
      exact Or.inr ⟨c, cs, rfl, h⟩
    · intro h
      rcases h with h | ⟨c2, cs2, he, hw⟩
      · exact absurd h (List.cons_ne_nil c cs)
      · injection he with he1 he2
        subst he1
        exact hw

/-- A bounded year token survives prefixing by one character: the prefixed
character becomes the last-of-`pre` witness for the left boundary. -/
theorem hasYearToken_cons (prev : Option Char) (a : Char) (s : Str) (v : Nat)
    (h : HasYearToken (some a) s v) : HasYearToken prev (a :: s) v := by
  obtain ⟨pre, x, y, post, hs, hval, hbef, haft⟩ := h
  refine ⟨a :: pre, x, y, post, by rw [hs]; rfl, hval, ?_, haft⟩
  rcases hbef with ⟨hpre, hnw⟩ | ⟨q, hl, hq⟩
  · subst hpre
    exact Or.inr ⟨a, by simp, hnw⟩
  · refine Or.inr ⟨q, ?_, hq⟩
    cases pre with
    | nil => simp at hl
    | cons p ps => rw [List.getLast?_cons_cons]; exact hl

/-- Soundness of the year scan: every reported value comes from a
word-boundary two-digit token of the year alternation. -/
theorem findYears_sound :
    ∀ (n : Nat) (s : Str), s.length ≤ n → ∀ (prev : Option Char) (v : Nat),
      v ∈ findYears prev s → HasYearToken prev s v := by
  intro n
  induction n with
  | zero =>
    intro s hs prev v hv
    cases s with
    | nil => simp [findYears] at hv
    | cons a as => simp at hs
  | succ n ih =>
    intro s hs prev v hv
    cases s with
    | nil => simp [findYears] at hv
    | cons a s2 =>
      cases s2 with
      | nil => simp [findYears] at hv
      | cons b rest =>
        rw [findYears] at hv
        cases hy : yearPairVal a b with
        | none =>
          simp only [hy] at hv
          exact hasYearToken_cons prev a _ v
            (ih (b :: rest) (by simp at hs ⊢; omega) (some a) v hv)
        | some w =>
          simp only [hy] at hv
          by_cases hb : (boundaryB prev && boundaryA rest) = true
          · rw [if_pos hb] at hv
            rcases List.mem_cons.mp hv with h1 | h2
            · subst h1
              obtain ⟨hbB, hbA⟩ := Bool.and_eq_true .. |>.mp hb
              exact ⟨[], a, b, rest, rfl, hy,
                Or.inl ⟨rfl, (boundaryB_iff prev).mp hbB⟩,
                (boundaryA_iff rest).mp hbA⟩
            · have hr := ih rest (by simp at hs ⊢; omega) (some b) v h2
              exact hasYearToken_cons prev a _ v
                (hasYearToken_cons (some a) b rest v hr)
          · rw [if_neg hb] at hv
            exact hasYearToken_cons prev a _ v
              (ih (b :: rest) (by simp at hs ⊢; omega) (some a) v hv)

/-- Completeness of the year scan: every word-boundary two-digit token of
the year alternation is reported. -/
theorem findYears_complete :
    ∀ (n : Nat) (s : Str), s.length ≤ n → ∀ (prev : Option Char) (v : Nat),
      HasYearToken prev s v → v ∈ findYears prev s := by
  intro n
  induction n with
  | zero =>
    intro s hs prev v hv
    obtain ⟨pre, x, y, post, he, hval, hbef, haft⟩ := hv
    subst he
    simp at hs
  | succ n ih =>
    intro s hs prev v hv
    obtain ⟨pre, x, y, post, he, hval, hbef, haft⟩ := hv
    subst he
    cases pre with
    | nil =>
      have hbB : boundaryB prev = true := by
        rcases hbef with ⟨-, hnw⟩ | ⟨q, hq, -⟩
        · exact (boundaryB_iff prev).mpr hnw
        · simp at hq
      have hbA : boundaryA post = true := (boundaryA_iff post).mpr haft
      rw [List.nil_append, findYears]
      simp only [hval, hbB, hbA, Bool.and_self, if_true]
      exact List.mem_cons_self v _
    | cons p pre2 =>
      have hyw : pyWordChar y = true :=
        pyWordChar_of_digit y (yearPairVal_snd_digit x y v hval)
      cases pre2 with
      | nil =>
        have hpw : pyWordChar p = false := by
          rcases hbef with ⟨hpre, -⟩ | ⟨q, hq, hqw⟩
          · cases hpre
          · simp at hq
            subst hq
            exact hqw
        have htail : v ∈ findYears (some p) (x :: y :: post) := by
          apply ih (x :: y :: post) (by simp at hs ⊢; omega) (some p) v
          exact ⟨[], x, y, post, rfl, hval, Or.inl ⟨rfl, hpw⟩, haft⟩
        have hbAf : boundaryA (y :: post) = false := by
          simp [boundaryA, hyw]
        rw [List.cons_append, List.nil_append, findYears]
        cases hxy : yearPairVal p x with
        | none => simp only [hxy]; exact htail
        | some w =>
          simp only [hxy, hbAf, Bool.and_false, Bool.false_eq_true, if_false]
          exact htail
      | cons p2 pre3 =>
        obtain ⟨q, hq, hqw⟩ : ∃ q, (p2 :: pre3).getLast? = some q ∧
            pyWordChar q = false := by
          rcases hbef with ⟨hpre, -⟩ | ⟨q, hq, hqw⟩
          · cases hpre
          · rw [List.getLast?_cons_cons] at hq
            exact ⟨q, hq, hqw⟩
        have hbef2 : ((p2 :: pre3 : Str) = [] ∧ PrevNonWord (some p)) ∨
            ∃ q2, (p2 :: pre3).getLast? = some q2 ∧ pyWordChar q2 = false :=
          Or.inr ⟨q, hq, hqw⟩
        have hstep : v ∈ findYears (some p) (p2 :: (pre3 ++ x :: y :: post)) := by
          apply ih (p2 :: (pre3 ++ x :: y :: post)) (by simp at hs ⊢; omega) (some p) v
          exact ⟨p2 :: pre3, x, y, post, by simp, hval, hbef2, haft⟩
        rw [List.cons_append, List.cons_append, findYears]
        cases hxy : yearPairVal p p2 with
        | none => simp only [hxy]; exact hstep
        | some w =>
          simp only [hxy]
          by_cases hb : (boundaryB prev && boundaryA (pre3 ++ x :: y :: post)) = true
          · rw [if_pos hb]
            -- the scan consumed (p, p2); our token lies in the tail
            have htail2 : v ∈ findYears (some p2) (pre3 ++ x :: y :: post) := by
              apply ih (pre3 ++ x :: y :: post) (by simp at hs ⊢; omega) (some p2) v
              refine ⟨pre3, x, y, post, rfl, hval, ?_, haft⟩
              cases pre3 with
              | nil =>
                left
                refine ⟨rfl, ?_⟩
                have hqp : q = p2 := Eq.symm (by simpa using hq)
                subst hqp
                exact hqw
              | cons p3 pre4 =>
                right
                rw [List.getLast?_cons_cons] at hq
                exact ⟨q, hq, hqw⟩
            exact List.mem_cons_of_mem w htail2
          · rw [if_neg hb]
            exact hstep

theorem mem_extractYears (s : Str) (y : Nat) :
    y ∈ extractYears s ↔ ∃ v, v ∈ findYears none s ∧ v + 100 = y := by
  unfold extractYears
  rw [List.Perm.mem_iff (List.perm_insertionSort _ _), List.mem_dedup]
  simp [List.mem_map]

theorem extractYears_sorted (s : Str) :
    List.Sorted (· ≤ ·) (extractYears s) :=
  List.sorted_insertionSort _ _

theorem extractYears_nodup (s : Str) : (extractYears s).Nodup := by
  unfold extractYears
  exact ((List.perm_insertionSort _ _).nodup_iff).mpr (List.nodup_dedup _)

/-- C6: year extraction — a value is extracted exactly when the text has a
word-boundary two-digit token of the `05`–`14` alternation, shifted by
`+100` (so everything extracted lies in 105–114 and out-of-window tokens
are never years); the result is deduplicated and rendered sorted; and the
two concrete examples of the claim hold. -/
theorem C6_year_extraction :
    (∀ (s : Str) (y : Nat),
        y ∈ extractYears s ↔
          ∃ v, y = v + 100 ∧ 5 ≤ v ∧ v ≤ 14 ∧ HasYearToken none s v) ∧
    (∀ s : Str, List.Sorted (· ≤ ·) (extractYears s) ∧ (extractYears s).Nodup) ∧
    extractYears "05 06 10 access".toList = [105, 106, 110] ∧
    extractYears "100 200".toList = [] := by
  refine ⟨fun s y => ?_, fun s => ⟨extractYears_sorted s, extractYears_nodup s⟩,
    by decide, by decide⟩
  rw [mem_extractYears]
  constructor
  · rintro ⟨v, hv, rfl⟩
    have ht := findYears_sound s.length s le_rfl none v hv
    obtain ⟨pre, a, b, post, -, hval, -, -⟩ := ht
    obtain ⟨h5, h14⟩ := yearPairVal_range a b v hval
    exact ⟨v, rfl, h5, h14, findYears_sound s.length s le_rfl none v hv⟩
  · rintro ⟨v, rfl, h5, h14, ht⟩
    exact ⟨v, findYears_complete s.length s le_rfl none v ht, rfl⟩

/-- C6 witness: the characterisation applied at a concrete text and value —
the token `05` in `"05"` is extracted as 105. -/
theorem C6_year_extraction_witness : 105 ∈ extractYears "05".toList :=
  (C6_year_extraction.1 "05".toList 105).mpr
    ⟨5, rfl, by omega, by omega,
      ⟨[], '0', '5', [], by decide, by decide, Or.inl ⟨rfl, trivial⟩, Or.inl rfl⟩⟩

end VocabApp
